import Mathlib

/-!
Verification of `prefix-cleaner-safetensors.py`: a script that removes the
substring `._checkpoint_wrapped_module` from the keys of safetensors shard
files and from the `weight_map` of an accompanying `model.index.json`.

The key transformation (`str.replace` with the marker and an empty
replacement), Python's substring test (`in`), Python `dict` insertion
(insertion-order preserving, update-in-place), and the three functions
`clean_safetensors_file`, `update_index_json` and `process_directory` are
embedded as executable Lean functions.  Tensor payloads and the values of
non-`weight_map` fields of the index document are opaque to the script, so
they are modelled by arbitrary type parameters.  File I/O (the external
collaborators `safe_open`/`save_file`/`open`) is modelled by explicit
failability flags on the file state; per the external-interface contract the
container write either fully succeeds or raises leaving the original file
content intact.
-/

set_option autoImplicit false

namespace PrefixCleaner

/-- The marker substring `._checkpoint_wrapped_module`, as a list of
characters (lines 51/52 and 106/107 of the script). -/
def marker : List Char := "._checkpoint_wrapped_module".toList

/-- Python's substring test `M in l` (the `"._checkpoint_wrapped_module" in key`
checks on lines 51 and 106): does `M` occur contiguously in `l`? -/
def hasSub (M : List Char) : List Char → Bool
  | [] => M.isEmpty
  | c :: rest => M.isPrefixOf (c :: rest) || hasSub M rest

/-- Fuel-indexed helper for Python's `l.replace(M, "")`: scan left to right;
at each position, if `M` matches there, drop it and continue after the match,
otherwise keep the character.  The fuel (an upper bound on the number of
scanning steps, decreased by one per step) makes the recursion structural so
that the function reduces inside the kernel; `replaceFuel_congr` below shows
any fuel of at least `l.length` gives the same result.  (For `M = ""` Python
would behave differently; the guard `M ≠ []` keeps this total — the script
only ever uses the non-empty marker.) -/
def replaceFuel (M : List Char) : Nat → List Char → List Char
  | _, [] => []
  | 0, l => l
  | fuel + 1, c :: rest =>
    if M.isPrefixOf (c :: rest) ∧ M ≠ [] then
      replaceFuel M fuel (List.drop (M.length - 1) rest)
    else
      c :: replaceFuel M fuel rest

/-- Python's `l.replace(M, "")` for a pattern `M` (lines 52 and 107 use it
with `M = marker`). -/
def pyReplace (M : List Char) (l : List Char) : List Char :=
  replaceFuel M l.length l

theorem length_drop_le (n : Nat) (l : List Char) : (List.drop n l).length ≤ l.length := by
  rw [List.length_drop]
  exact Nat.sub_le _ _

/-- Any two sufficient amounts of fuel give the same replacement result, so
`pyReplace` really is the fuel-free left-to-right scan. -/
theorem replaceFuel_congr (M : List Char) :
    ∀ (fuel₁ fuel₂ : Nat) (l : List Char), l.length ≤ fuel₁ → l.length ≤ fuel₂ →
      replaceFuel M fuel₁ l = replaceFuel M fuel₂ l := by
  intro fuel₁
  induction fuel₁ with
  | zero =>
    intro fuel₂ l h₁ _
    have : l = [] := List.eq_nil_of_length_eq_zero (Nat.le_zero.mp h₁)
    subst this
    cases fuel₂ <;> rfl
  | succ f₁ ih =>
    intro fuel₂ l h₁ h₂
    cases l with
    | nil => cases fuel₂ <;> rfl
    | cons c rest =>
      cases fuel₂ with
      | zero => simp at h₂
      | succ f₂ =>
        simp only [List.length_cons, Nat.succ_le_succ_iff] at h₁ h₂
        simp only [replaceFuel]
        by_cases hpre : M.isPrefixOf (c :: rest) ∧ M ≠ []
        · rw [if_pos hpre, if_pos hpre]
          exact ih f₂ _ (le_trans (length_drop_le _ _) h₁)
            (le_trans (length_drop_le _ _) h₂)
        · rw [if_neg hpre, if_neg hpre, ih f₂ rest h₁ h₂]

/-- Unfolding equation for `pyReplace` on a cons cell, matching the scanning
step of Python's `replace`. -/
theorem pyReplace_cons (M : List Char) (c : Char) (rest : List Char) :
    pyReplace M (c :: rest) =
      if M.isPrefixOf (c :: rest) ∧ M ≠ [] then
        pyReplace M (List.drop (M.length - 1) rest)
      else
        c :: pyReplace M rest := by
  show replaceFuel M (rest.length + 1) (c :: rest) = _
  simp only [replaceFuel]
  by_cases hpre : M.isPrefixOf (c :: rest) ∧ M ≠ []
  · rw [if_pos hpre, if_pos hpre]
    exact replaceFuel_congr M _ _ _ (length_drop_le _ _) le_rfl
  · rw [if_neg hpre, if_neg hpre]
    rfl

@[simp] theorem pyReplace_nil (M : List Char) : pyReplace M [] = [] := rfl

/-- The key normalizer: `key.replace("._checkpoint_wrapped_module", "")`. -/
def normalize (k : List Char) : List Char := pyReplace marker k

/-- Python `dict` assignment `d[k] = v`: if `k` is already present its value is
updated in place, otherwise the pair is appended at the end (insertion
order). -/
def dictInsert {T : Type} (d : List (List Char × T)) (k : List Char) (v : T) :
    List (List Char × T) :=
  match d with
  | [] => [(k, v)]
  | (k', v') :: rest => if k' = k then (k, v) :: rest else (k', v') :: dictInsert rest k v

/-- Python `dict` lookup `d.get(k)`. -/
def dictGet? {T : Type} (d : List (List Char × T)) (k : List Char) : Option T :=
  match d with
  | [] => none
  | (k', v') :: rest => if k' = k then some v' else dictGet? rest k

/-- The per-key transformation performed by both rewriting loops: replace the
marker if the key contains it, otherwise keep the key. -/
def cleanKey (key : List Char) : List Char :=
  if hasSub marker key then normalize key else key

/-- The rewriting loop shared by lines 47–57 (`for key in f.keys(): ...`) and
lines 105–112 (`for key, filename in index_data['weight_map'].items(): ...`):
iterate over the entries, inserting each value under its cleaned key into the
accumulator dict, and set the modified flag whenever a key contains the
marker. -/
def cleanLoop {T : Type} :
    List (List Char × T) → List (List Char × T) → Bool → List (List Char × T) × Bool
  | [], tensors, keys_modified => (tensors, keys_modified)
  | (key, tensor) :: rest, tensors, keys_modified =>
    if hasSub marker key then
      cleanLoop rest (dictInsert tensors (normalize key) tensor) true
    else
      cleanLoop rest (dictInsert tensors key tensor) keys_modified

/-- A safetensors container: the ordered (key, tensor) entries enumerated by
`f.keys()`, plus the string-to-string metadata mapping.  (`f.metadata() or {}`
on line 44 defaults absent metadata to the empty mapping, so metadata is
modelled directly as the mapping.)  The tensor payload type `T` is opaque to
the script. -/
structure Container (T : Type) where
  entries : List (List Char × T)
  metadata : List (List Char × List Char)
  deriving DecidableEq

/-- A container file on disk: its content plus flags saying whether the read
(`safe_open`/`get_tensor`, lines 42–57) or the write (`save_file`, line 69)
raises.  Per the external contract, a failed write leaves the original
content intact (the replacement is produced wholesale before being
committed). -/
structure ShardFile (T : Type) where
  content : Container T
  readFails : Bool
  writeFails : Bool
  deriving DecidableEq

/-- `clean_safetensors_file` (lines 24–74): read the container (exceptions →
`False`, file untouched); run the rewriting loop; if no key was modified
return `False` without writing; otherwise save the new tensors with the
original metadata (exceptions → `False`, file untouched).  Returns the flag
together with the resulting file state. -/
def clean_safetensors_file {T : Type} (f : ShardFile T) : Bool × ShardFile T :=
  if f.readFails then
    (false, f)
  else
    let r := cleanLoop f.content.entries [] false
    if r.2 then
      if f.writeFails then
        (false, f)
      else
        (true, { f with content := { entries := r.1, metadata := f.content.metadata } })
    else
      (false, f)

/-- The parsed `index.json` document: the optional `weight_map` field (a dict
from key to shard filename) plus all other top-level fields, whose values
(type `J`) are opaque to the script. -/
structure IndexData (J : Type) where
  weight_map : Option (List (List Char × List Char))
  others : List (List Char × J)
  deriving DecidableEq

/-- The index file on disk: its parsed content, whether it exists
(`os.path.exists`, line 87), and whether reading (lines 93–98) or writing
(lines 120–127) raises. -/
structure IndexFile (J : Type) where
  content : IndexData J
  present : Bool
  readFails : Bool
  writeFails : Bool
  deriving DecidableEq

/-- `update_index_json` (lines 77–127): missing file → `False`; read failure →
`False`; if a `weight_map` field exists, rewrite its keys with the shared
loop; if nothing was modified return `False` without writing; otherwise write
the document back with only `weight_map` replaced (write failure → `False`,
file untouched). -/
def update_index_json {J : Type} (g : IndexFile J) : Bool × IndexFile J :=
  if !g.present then
    (false, g)
  else if g.readFails then
    (false, g)
  else
    match g.content.weight_map with
    | none => (false, g)
    | some wm =>
      let r := cleanLoop wm [] false
      if r.2 then
        if g.writeFails then
          (false, g)
        else
          (true, { g with content := { weight_map := some r.1, others := g.content.others } })
      else
        (false, g)

/-- A directory: the `*.safetensors` files directly inside it, and the state
of its `model.index.json` (whose `present` flag models `index_path.exists()`,
line 159). -/
structure DirState (T J : Type) where
  shards : List (ShardFile T)
  index : IndexFile J
  deriving DecidableEq

/-- Whether at least one container was modified during this run: the
`any_modified` flag accumulated on lines 152–155. -/
def anyShardModified {T : Type} (shards : List (ShardFile T)) : Bool :=
  shards.any (fun f => (clean_safetensors_file f).1)

/-- `process_directory` (lines 130–162), for a directory that exists and
contains the given shard files: run `clean_safetensors_file` on each shard,
and invoke `update_index_json` on the index file only if some shard was
modified and the index file exists.  The second component reports whether
`update_index_json` was invoked. -/
def process_directory {T J : Type} (d : DirState T J) : DirState T J × Bool :=
  let results := d.shards.map clean_safetensors_file
  let any_modified := results.any (fun r => r.1)
  let newShards := results.map (fun r => r.2)
  if any_modified && d.index.present then
    ({ shards := newShards, index := (update_index_json d.index).2 }, true)
  else
    ({ shards := newShards, index := d.index }, false)

/-! ### Basic properties of the key normalizer -/

/-- If `M` does not occur in `l`, the replacement scan copies `l` verbatim. -/
theorem pyReplace_of_hasSub_eq_false {M l : List Char} (h : hasSub M l = false) :
    pyReplace M l = l := by
  induction l with
  | nil => rfl
  | cons c rest ih =>
    simp only [hasSub, Bool.or_eq_false_iff] at h
    rw [pyReplace_cons, if_neg (by simp [h.1]), ih h.2]

theorem pyReplace_length_le_aux (M : List Char) :
    ∀ (n : Nat) (l : List Char), l.length ≤ n → (pyReplace M l).length ≤ l.length := by
  intro n
  induction n with
  | zero =>
    intro l h
    have : l = [] := List.eq_nil_of_length_eq_zero (Nat.le_zero.mp h)
    subst this
    simp
  | succ n ih =>
    intro l h
    cases l with
    | nil => simp
    | cons c rest =>
      simp only [List.length_cons, Nat.succ_le_succ_iff] at h
      rw [pyReplace_cons]
      by_cases hpre : M.isPrefixOf (c :: rest) ∧ M ≠ []
      · rw [if_pos hpre]
        calc (pyReplace M (List.drop (M.length - 1) rest)).length
            ≤ (List.drop (M.length - 1) rest).length :=
              ih _ (le_trans (length_drop_le _ _) h)
          _ ≤ rest.length := length_drop_le _ _
          _ ≤ (c :: rest).length := by simp
      · rw [if_neg hpre]
        simpa using ih rest h

/-- The replacement never lengthens the string. -/
theorem pyReplace_length_le (M l : List Char) : (pyReplace M l).length ≤ l.length :=
  pyReplace_length_le_aux M l.length l le_rfl

theorem pyReplace_length_lt_aux (M : List Char) (hM : M ≠ []) :
    ∀ (n : Nat) (l : List Char), l.length ≤ n → hasSub M l = true →
      (pyReplace M l).length < l.length := by
  intro n
  induction n with
  | zero =>
    intro l h hsub
    have : l = [] := List.eq_nil_of_length_eq_zero (Nat.le_zero.mp h)
    subst this
    simp [hasSub, List.isEmpty_iff] at hsub
    exact absurd hsub hM
  | succ n ih =>
    intro l h hsub
    cases l with
    | nil =>
      simp [hasSub, List.isEmpty_iff] at hsub
      exact absurd hsub hM
    | cons c rest =>
      simp only [List.length_cons, Nat.succ_le_succ_iff] at h
      rw [pyReplace_cons]
      by_cases hpre : M.isPrefixOf (c :: rest) ∧ M ≠ []
      · rw [if_pos hpre]
        calc (pyReplace M (List.drop (M.length - 1) rest)).length
            ≤ (List.drop (M.length - 1) rest).length :=
              pyReplace_length_le _ _
          _ ≤ rest.length := length_drop_le _ _
          _ < (c :: rest).length := by simp
      · rw [if_neg hpre]
        have hp : M.isPrefixOf (c :: rest) = false := by
          by_contra hc
          exact hpre ⟨by simpa using hc, hM⟩
        simp only [hasSub, hp, Bool.false_or] at hsub
        simpa using ih rest h hsub

/-- If `M` is non-empty and occurs in `l`, the replacement strictly shortens
`l` (each removed occurrence deletes `M.length ≥ 1` characters). -/
theorem pyReplace_length_lt {M l : List Char} (hM : M ≠ []) (h : hasSub M l = true) :
    (pyReplace M l).length < l.length :=
  pyReplace_length_lt_aux M hM l.length l le_rfl h

/-- For a non-empty pattern, the replacement fixes `l` exactly when `M` does
not occur in `l`. -/
theorem pyReplace_eq_self_iff {M : List Char} (hM : M ≠ []) (l : List Char) :
    pyReplace M l = l ↔ hasSub M l = false := by
  constructor
  · intro h
    by_contra hc
    have hsub : hasSub M l = true := by
      cases hh : hasSub M l
      · exact absurd hh hc
      · rfl
    have := pyReplace_length_lt hM hsub
    rw [h] at this
    exact Nat.lt_irrefl _ this
  · exact pyReplace_of_hasSub_eq_false

theorem marker_ne_nil : marker ≠ [] := by decide

/-- `normalize` is the identity on keys that do not contain the marker. -/
theorem normalize_of_no_marker {k : List Char} (h : hasSub marker k = false) :
    normalize k = k :=
  pyReplace_of_hasSub_eq_false h

/-- The per-key transformation of the loops agrees with plain `normalize`:
the `if "._checkpoint_wrapped_module" in key` guard is redundant because
`replace` is the identity on keys without the marker. -/
theorem cleanKey_eq_normalize (k : List Char) : cleanKey k = normalize k := by
  unfold cleanKey
  by_cases h : hasSub marker k
  · rw [if_pos h]
  · rw [if_neg h, normalize_of_no_marker (by simpa using h)]

/-! ### Properties of the dict operations and the rewriting loop -/

/-- Every entry of `dictInsert d k v` is the inserted pair or an entry of `d`. -/
theorem mem_dictInsert {T : Type} {d : List (List Char × T)} {k : List Char} {v : T}
    {p : List Char × T} (h : p ∈ dictInsert d k v) : p = (k, v) ∨ p ∈ d := by
  induction d with
  | nil =>
    simp only [dictInsert, List.mem_singleton] at h
    exact Or.inl h
  | cons q rest ih =>
    obtain ⟨k', v'⟩ := q
    simp only [dictInsert] at h
    by_cases hk : k' = k
    · rw [if_pos hk] at h
      rcases List.mem_cons.mp h with h | h
      · exact Or.inl h
      · exact Or.inr (List.mem_cons_of_mem _ h)
    · rw [if_neg hk] at h
      rcases List.mem_cons.mp h with h | h
      · exact Or.inr (h ▸ List.mem_cons_self _ _)
      · rcases ih h with h | h
        · exact Or.inl h
        · exact Or.inr (List.mem_cons_of_mem _ h)

/-- Looking up after a dict assignment: the assigned key returns the new
value, any other key is unaffected. -/
theorem dictGet?_dictInsert {T : Type} (d : List (List Char × T)) (k : List Char) (v : T)
    (κ : List Char) :
    dictGet? (dictInsert d k v) κ = if k = κ then some v else dictGet? d κ := by
  induction d with
  | nil => simp [dictInsert, dictGet?]
  | cons q rest ih =>
    obtain ⟨k', v'⟩ := q
    simp only [dictInsert]
    by_cases hk : k' = k
    · subst hk
      rw [if_pos rfl]
      by_cases hκ : k' = κ
      · simp [dictGet?, hκ]
      · simp [dictGet?, hκ]
    · rw [if_neg hk]
      by_cases hκ : k' = κ
      · subst hκ
        have hkκ : ¬ k = k' := fun h => hk h.symm
        simp [dictGet?, hkκ]
      · simp [dictGet?, hκ, ih]

/-- The modified flag computed by the rewriting loop is the disjunction of
the incoming flag with "some key contains the marker". -/
theorem cleanLoop_flag {T : Type} (entries : List (List Char × T)) :
    ∀ (acc : List (List Char × T)) (flag : Bool),
      (cleanLoop entries acc flag).2 =
        (flag || entries.any fun p => hasSub marker p.1) := by
  induction entries with
  | nil => intro acc flag; simp [cleanLoop]
  | cons q rest ih =>
    intro acc flag
    obtain ⟨key, tensor⟩ := q
    simp only [cleanLoop]
    by_cases h : hasSub marker key
    · rw [if_pos h, ih]
      simp [h]
    · rw [if_neg h, ih]
      simp [show hasSub marker key = false by simpa using h]

/-- Every entry of the dict produced by the rewriting loop satisfies any
predicate that holds for the accumulator's entries and for
`(normalize k, t)` for every input entry `(k, t)`. -/
theorem cleanLoop_entries_sound {T : Type} (Q : List Char × T → Prop)
    (entries : List (List Char × T)) :
    ∀ (acc : List (List Char × T)) (flag : Bool),
      (∀ p ∈ acc, Q p) →
      (∀ k t, (k, t) ∈ entries → Q (normalize k, t)) →
      ∀ p ∈ (cleanLoop entries acc flag).1, Q p := by
  induction entries with
  | nil =>
    intro acc flag hacc _ p hp
    exact hacc p hp
  | cons q rest ih =>
    intro acc flag hacc hin p hp
    obtain ⟨key, tensor⟩ := q
    simp only [cleanLoop] at hp
    by_cases h : hasSub marker key
    · rw [if_pos h] at hp
      refine ih _ _ ?_ (fun k t hkt => hin k t (List.mem_cons_of_mem _ hkt)) p hp
      intro p' hp'
      rcases mem_dictInsert hp' with h' | h'
      · rw [h']
        exact hin key tensor (List.mem_cons_self _ _)
      · exact hacc p' h'
    · rw [if_neg h] at hp
      refine ih _ _ ?_ (fun k t hkt => hin k t (List.mem_cons_of_mem _ hkt)) p hp
      intro p' hp'
      rcases mem_dictInsert hp' with h' | h'
      · rw [h']
        have : normalize key = key := normalize_of_no_marker (by simpa using h)
        rw [← this]
        exact hin key tensor (List.mem_cons_self _ _)
      · exact hacc p' h'

/-- `orElseOpt a b` is `a` if it is `some`, else `b`. -/
def orElseOpt {T : Type} (a b : Option T) : Option T :=
  match a with
  | some v => some v
  | none => b

/-- The value that ends up stored under normalized key `κ`: the value of the
*last* input entry whose key normalizes to `κ` (searching from the end of the
enumeration order), if any. -/
def lastCleaned {T : Type} : List (List Char × T) → List Char → Option T
  | [], _ => none
  | (k, t) :: rest, κ =>
    orElseOpt (lastCleaned rest κ) (if normalize k = κ then some t else none)

/-- The dict built by the rewriting loop does not depend on the incoming
modified flag (the flag only feeds the returned boolean). -/
theorem cleanLoop_fst_flag {T : Type} (entries : List (List Char × T)) :
    ∀ (acc : List (List Char × T)) (flag flag' : Bool),
      (cleanLoop entries acc flag).1 = (cleanLoop entries acc flag').1 := by
  induction entries with
  | nil => intro acc flag flag'; rfl
  | cons q rest ih =>
    intro acc flag flag'
    obtain ⟨key, tensor⟩ := q
    simp only [cleanLoop]
    by_cases h : hasSub marker key
    · rw [if_pos h, if_pos h]
    · rw [if_neg h, if_neg h, ih]

/-- Looking up `κ` in the dict built by the rewriting loop returns the value
of the last entry normalizing to `κ`, falling back to the accumulator. -/
theorem cleanLoop_get {T : Type} (entries : List (List Char × T)) :
    ∀ (acc : List (List Char × T)) (flag : Bool) (κ : List Char),
      dictGet? (cleanLoop entries acc flag).1 κ =
        orElseOpt (lastCleaned entries κ) (dictGet? acc κ) := by
  induction entries with
  | nil =>
    intro acc flag κ
    simp [cleanLoop, lastCleaned, orElseOpt]
  | cons q rest ih =>
    intro acc flag κ
    obtain ⟨key, tensor⟩ := q
    simp only [cleanLoop, lastCleaned]
    have hins : ∀ (k' : List Char),
        k' = normalize key →
        dictGet? (cleanLoop rest (dictInsert acc k' tensor) true).1 κ =
          orElseOpt (lastCleaned rest κ)
            (orElseOpt (if normalize key = κ then some tensor else none) (dictGet? acc κ)) := by
      intro k' hk'
      rw [ih _ true κ, dictGet?_dictInsert]
      subst hk'
      by_cases hκ : normalize key = κ
      · simp [hκ, orElseOpt]
      · simp [hκ, orElseOpt]
    by_cases h : hasSub marker key
    · rw [if_pos h]
      rw [hins (normalize key) rfl]
      cases lastCleaned rest κ <;> simp [orElseOpt]
    · rw [if_neg h]
      have hkey : key = normalize key :=
        (normalize_of_no_marker (by simpa using h)).symm
      rw [cleanLoop_fst_flag rest (dictInsert acc key tensor) flag true, hins key hkey]
      cases lastCleaned rest κ <;> simp [orElseOpt]

/-! ### Claim theorems -/

/-- A key on which the normalizer is not idempotent: deleting the marker
occurrence splices the surrounding characters into a fresh occurrence of the
marker (`"." ++ marker ++ "_checkpoint_wrapped_module"`). -/
def kSplice : List Char :=
  ".._checkpoint_wrapped_module_checkpoint_wrapped_module".toList

/-- A marker-bearing key whose normalized form is marker-free. -/
def kWrapped : List Char := "layer.0._checkpoint_wrapped_module.weight".toList

/-- Claim C1, counterexample: the key normalizer is *not* idempotent.  On
`kSplice`, one pass yields exactly the marker (a spliced occurrence), and a
second pass deletes it, so `normalize (normalize k) ≠ normalize k`. -/
theorem normalize_not_idempotent_on_kSplice :
    normalize (normalize kSplice) ≠ normalize kSplice := by decide

/-- Claim C1, amended: the key normalizer is idempotent on every key whose
normalized form contains no occurrence of the marker substring — if
`normalize k` is marker-free then `normalize (normalize k) = normalize k`. -/
theorem normalize_idempotent_of_marker_free (k : List Char)
    (h : hasSub marker (normalize k) = false) :
    normalize (normalize k) = normalize k :=
  normalize_of_no_marker h

/-- Witness for the amended C1 at the concrete key `kWrapped`. -/
theorem normalize_idempotent_witness :
    hasSub marker (normalize kWrapped) = false ∧
    normalize (normalize kWrapped) = normalize kWrapped :=
  ⟨by decide, normalize_idempotent_of_marker_free kWrapped (by decide)⟩

/-- Claim C2, counterexample: the normalized result is *not* always free of
the marker substring: `normalize kSplice` contains the marker (deleting the
explicit occurrence splices the remaining characters into a new one). -/
theorem normalize_kSplice_contains_marker :
    hasSub marker (normalize kSplice) = true := by decide

/-- Claim C2, amended: the normalizer removes every occurrence of the marker
present in the key — `normalize k = k` exactly when `k` contains zero
occurrences of the marker substring (so a key containing the marker is always
changed) — but the result itself can contain a newly spliced occurrence, so
it is not marker-free for every `k`. -/
theorem normalize_eq_self_iff_marker_free (k : List Char) :
    normalize k = k ↔ hasSub marker k = false :=
  pyReplace_eq_self_iff marker_ne_nil k

/-- Claim C7: on a container and a manifest none of whose keys contains the
marker, `normalize` is the identity on every key, and both rewriters report
"not modified" (`false`) leaving the file state untouched. -/
theorem rewriters_noop_when_already_normalized {T J : Type}
    (f : ShardFile T) (g : IndexFile J)
    (hf : ∀ p ∈ f.content.entries, hasSub marker p.1 = false)
    (hg : ∀ wm, g.content.weight_map = some wm → ∀ p ∈ wm, hasSub marker p.1 = false) :
    (∀ p ∈ f.content.entries, normalize p.1 = p.1) ∧
    clean_safetensors_file f = (false, f) ∧
    update_index_json g = (false, g) := by
  have hflagf : (cleanLoop f.content.entries [] false).2 = false := by
    rw [cleanLoop_flag]
    simp only [Bool.false_or, List.any_eq_false]
    intro p hp
    simp [hf p hp]
  refine ⟨fun p hp => normalize_of_no_marker (hf p hp), ?_, ?_⟩
  · unfold clean_safetensors_file
    by_cases hr : f.readFails
    · simp [hr]
    · simp [hr, hflagf]
  · unfold update_index_json
    by_cases hp : g.present
    · by_cases hr : g.readFails
      · simp [hp, hr]
      · cases hwm : g.content.weight_map with
        | none => simp [hp, hr, hwm]
        | some wm =>
          have hflagg : (cleanLoop wm [] false).2 = false := by
            rw [cleanLoop_flag]
            simp only [Bool.false_or, List.any_eq_false]
            intro p hpm
            simp [hg wm hwm p hpm]
          simp [hp, hr, hwm, hflagg]
    · simp [hp]

/-- A concrete container file with two already-normalized keys (Scenario B of
the spec, extended with a second key). -/
def shardNormalized : ShardFile Nat :=
  ShardFile.mk (Container.mk [("a.weight".toList, 1), ("layer.1.weight".toList, 2)] [])
    false false

/-- A concrete manifest file whose `weight_map` keys are already normalized
and which carries one opaque extra field. -/
def indexNormalized : IndexFile Nat :=
  IndexFile.mk (IndexData.mk (some [("a.weight".toList, "shard1.bin".toList)])
    [("metadata".toList, 7)]) true false false

/-- Witness for C7 at `shardNormalized` and `indexNormalized`. -/
theorem rewriters_noop_witness :
    (∀ p ∈ shardNormalized.content.entries, hasSub marker p.1 = false) ∧
    (∀ wm, indexNormalized.content.weight_map = some wm →
      ∀ p ∈ wm, hasSub marker p.1 = false) ∧
    ((∀ p ∈ shardNormalized.content.entries, normalize p.1 = p.1) ∧
      clean_safetensors_file shardNormalized = (false, shardNormalized) ∧
      update_index_json indexNormalized = (false, indexNormalized)) := by
  refine ⟨by decide, ?_, ?_⟩
  · intro wm hwm
    cases hwm
    decide
  · refine rewriters_noop_when_already_normalized shardNormalized indexNormalized
      (by decide) ?_
    intro wm hwm
    cases hwm
    decide

/-- Claim C9: a manifest file that exists and parses but has no `weight_map`
field is reported "not modified" and is not written back. -/
theorem index_no_weight_map_not_modified {J : Type} (g : IndexFile J)
    (h1 : g.present = true) (h2 : g.readFails = false)
    (h3 : g.content.weight_map = none) :
    update_index_json g = (false, g) := by
  unfold update_index_json
  simp [h1, h2, h3]

/-- Witness for C9 at a concrete manifest with only non-`weight_map` fields. -/
theorem index_no_weight_map_witness :
    (IndexFile.mk (IndexData.mk none [("metadata".toList, (7 : Nat))]) true false false).present
        = true ∧
    (IndexFile.mk (IndexData.mk none [("metadata".toList, (7 : Nat))]) true false
        false).readFails = false ∧
    (IndexFile.mk (IndexData.mk none [("metadata".toList, (7 : Nat))]) true false
        false).content.weight_map = none ∧
    update_index_json (IndexFile.mk (IndexData.mk none [("metadata".toList, (7 : Nat))])
        true false false) =
      (false, IndexFile.mk (IndexData.mk none [("metadata".toList, (7 : Nat))]) true false
        false) :=
  ⟨rfl, rfl, rfl,
    index_no_weight_map_not_modified
      (IndexFile.mk (IndexData.mk none [("metadata".toList, (7 : Nat))]) true false false)
      rfl rfl rfl⟩

/-- Claim C3: when the shard rewriter reports "modified" (`true`), only key
names change — the metadata mapping is untouched, and every entry of the
rewritten container carries the payload of an original entry whose key
normalizes to the new key. -/
theorem clean_rewrite_frame {T : Type} (f : ShardFile T)
    (h : (clean_safetensors_file f).1 = true) :
    ((clean_safetensors_file f).2).content.metadata = f.content.metadata ∧
    ∀ p ∈ ((clean_safetensors_file f).2).content.entries,
      ∃ k, (k, p.2) ∈ f.content.entries ∧ p.1 = normalize k := by
  obtain ⟨c, rf, wf⟩ := f
  cases rf with
  | true => simp [clean_safetensors_file] at h
  | false =>
    cases hm : (cleanLoop c.entries [] false).2 with
    | false => simp [clean_safetensors_file, hm] at h
    | true =>
      cases wf with
      | true => simp [clean_safetensors_file, hm] at h
      | false =>
        have hval : clean_safetensors_file (ShardFile.mk c false false) =
            (true, ShardFile.mk (Container.mk (cleanLoop c.entries [] false).1 c.metadata)
              false false) := by
          simp [clean_safetensors_file, hm]
        rw [hval]
        refine ⟨rfl, ?_⟩
        intro p hp
        refine cleanLoop_entries_sound
          (fun p => ∃ k, (k, p.2) ∈ c.entries ∧ p.1 = normalize k)
          c.entries [] false (by simp) ?_ p hp
        intro k t hkt
        exact ⟨k, hkt, rfl⟩

/-- A concrete shard file matching Scenario A of the spec: one wrapped key
and one already-normalized key. -/
def shardWrapped : ShardFile Nat :=
  ShardFile.mk (Container.mk
    [("layer.0._checkpoint_wrapped_module.weight".toList, 1), ("layer.1.weight".toList, 2)]
    [("format".toList, "pt".toList)]) false false

/-- Witness for C3 at `shardWrapped`. -/
theorem clean_rewrite_frame_witness :
    (clean_safetensors_file shardWrapped).1 = true ∧
    (((clean_safetensors_file shardWrapped).2).content.metadata =
        shardWrapped.content.metadata ∧
      ∀ p ∈ ((clean_safetensors_file shardWrapped).2).content.entries,
        ∃ k, (k, p.2) ∈ shardWrapped.content.entries ∧ p.1 = normalize k) :=
  ⟨by decide, clean_rewrite_frame shardWrapped (by decide)⟩

/-- Claim C4: when the manifest rewriter reports "modified" (`true`), only
the keys of the `weight_map` change — all other top-level fields keep their
values, the new `weight_map` is the rewritten one, and every entry of it
carries the filename of an original entry whose key normalizes to the new
key. -/
theorem index_rewrite_frame {J : Type} (g : IndexFile J)
    (h : (update_index_json g).1 = true) :
    ((update_index_json g).2).content.others = g.content.others ∧
    ∃ wm, g.content.weight_map = some wm ∧
      ((update_index_json g).2).content.weight_map = some (cleanLoop wm [] false).1 ∧
      ∀ p ∈ (cleanLoop wm [] false).1,
        ∃ k, (k, p.2) ∈ wm ∧ p.1 = normalize k := by
  obtain ⟨⟨wmo, others⟩, pres, rf, wf⟩ := g
  cases pres with
  | false => simp [update_index_json] at h
  | true =>
    cases rf with
    | true => simp [update_index_json] at h
    | false =>
      cases wmo with
      | none => simp [update_index_json] at h
      | some wm =>
        cases hm : (cleanLoop wm [] false).2 with
        | false => simp [update_index_json, hm] at h
        | true =>
          cases wf with
          | true => simp [update_index_json, hm] at h
          | false =>
            have hval : update_index_json
                (IndexFile.mk (IndexData.mk (some wm) others) true false false) =
                (true, IndexFile.mk
                  (IndexData.mk (some (cleanLoop wm [] false).1) others) true false false) := by
              simp [update_index_json, hm]
            rw [hval]
            refine ⟨rfl, wm, rfl, rfl, ?_⟩
            intro p hpm
            refine cleanLoop_entries_sound
              (fun p => ∃ k, (k, p.2) ∈ wm ∧ p.1 = normalize k)
              wm [] false (by simp) ?_ p hpm
            intro k t hkt
            exact ⟨k, hkt, rfl⟩

/-- A concrete manifest file matching Scenario C of the spec, with one opaque
extra top-level field. -/
def indexWrapped : IndexFile Nat :=
  IndexFile.mk (IndexData.mk
    (some [("layer.0._checkpoint_wrapped_module.bias".toList, "shard1.bin".toList)])
    [("metadata".toList, 3)]) true false false

/-- Witness for C4 at `indexWrapped`. -/
theorem index_rewrite_frame_witness :
    (update_index_json indexWrapped).1 = true ∧
    (((update_index_json indexWrapped).2).content.others = indexWrapped.content.others ∧
      ∃ wm, indexWrapped.content.weight_map = some wm ∧
        ((update_index_json indexWrapped).2).content.weight_map =
          some (cleanLoop wm [] false).1 ∧
        ∀ p ∈ (cleanLoop wm [] false).1,
          ∃ k, (k, p.2) ∈ wm ∧ p.1 = normalize k) :=
  ⟨by decide, index_rewrite_frame indexWrapped (by decide)⟩

/-- The complete rewritten container the shard rewriter commits on success:
the dict built by the loop, with the original metadata. -/
def cleanedContainer {T : Type} (c : Container T) : Container T :=
  Container.mk (cleanLoop c.entries [] false).1 c.metadata

/-- Claim C5: a read or write failure makes the shard rewriter report "not
modified" (`false`), and the container is never left partially written — the
final file state is either exactly the original or exactly the complete
rewritten container committed on a successful (`true`) run. -/
theorem clean_fail_safe {T : Type} (f : ShardFile T) :
    ((f.readFails = true ∨ f.writeFails = true) → (clean_safetensors_file f).1 = false) ∧
    ((clean_safetensors_file f).2 = f ∨
      ((clean_safetensors_file f).1 = true ∧
        (clean_safetensors_file f).2 = { f with content := cleanedContainer f.content })) := by
  obtain ⟨c, rf, wf⟩ := f
  cases rf with
  | true => simp [clean_safetensors_file]
  | false =>
    cases hm : (cleanLoop c.entries [] false).2 with
    | false => simp [clean_safetensors_file, hm]
    | true =>
      cases wf with
      | true => simp [clean_safetensors_file, hm]
      | false =>
        have hval : clean_safetensors_file (ShardFile.mk c false false) =
            (true, ShardFile.mk (Container.mk (cleanLoop c.entries [] false).1 c.metadata)
              false false) := by
          simp [clean_safetensors_file, hm]
        rw [hval]
        refine ⟨fun hor => ?_, Or.inr ⟨rfl, rfl⟩⟩
        rcases hor with h | h <;> simp at h

/-- A concrete shard file with a wrapped key whose write step fails. -/
def shardWriteFailing : ShardFile Nat :=
  ShardFile.mk (Container.mk [("layer.0._checkpoint_wrapped_module.weight".toList, 1)] [])
    false true

/-- Witness for C5 at `shardWriteFailing`. -/
theorem clean_fail_safe_witness :
    ((shardWriteFailing.readFails = true ∨ shardWriteFailing.writeFails = true) →
      (clean_safetensors_file shardWriteFailing).1 = false) ∧
    ((clean_safetensors_file shardWriteFailing).2 = shardWriteFailing ∨
      ((clean_safetensors_file shardWriteFailing).1 = true ∧
        (clean_safetensors_file shardWriteFailing).2 =
          { shardWriteFailing with content := cleanedContainer shardWriteFailing.content })) :=
  clean_fail_safe shardWriteFailing

/-- Claim C6: in directory mode the manifest rewriter is invoked exactly when
some container was modified in this run and the manifest file is present; if
no container was modified the manifest file is left untouched. -/
theorem directory_manifest_gate {T J : Type} (d : DirState T J) :
    (process_directory d).2 = (anyShardModified d.shards && d.index.present) ∧
    (anyShardModified d.shards = false → (process_directory d).1.index = d.index) := by
  obtain ⟨shards, index⟩ := d
  have hany : ((shards.map clean_safetensors_file).any fun r => r.1) =
      anyShardModified shards := by
    induction shards with
    | nil => rfl
    | cons x xs ih =>
      simp only [List.map_cons, List.any_cons, anyShardModified] at ih ⊢
      rw [ih]
  simp only [process_directory, hany]
  cases hc : anyShardModified shards with
  | true =>
    cases hp : index.present with
    | true => simp
    | false => simp
  | false => simp

/-- A concrete directory: one shard needing rewriting, one already
normalized, and a present manifest (Scenario D of the spec). -/
def dirTwoShards : DirState Nat Nat :=
  DirState.mk [shardWrapped, shardNormalized] indexWrapped

/-- Witness for C6 at `dirTwoShards`. -/
theorem directory_manifest_gate_witness :
    (process_directory dirTwoShards).2 =
        (anyShardModified dirTwoShards.shards && dirTwoShards.index.present) ∧
    (anyShardModified dirTwoShards.shards = false →
      (process_directory dirTwoShards).1.index = dirTwoShards.index) :=
  directory_manifest_gate dirTwoShards

/-- Concatenation splits the last-entry search: entries of the second part
take precedence (they are processed later). -/
theorem lastCleaned_append {T : Type} (xs ys : List (List Char × T)) (κ : List Char) :
    lastCleaned (xs ++ ys) κ = orElseOpt (lastCleaned ys κ) (lastCleaned xs κ) := by
  induction xs with
  | nil =>
    simp only [List.nil_append, lastCleaned]
    cases h : lastCleaned ys κ <;> simp [orElseOpt, h]
  | cons q rest ih =>
    obtain ⟨k, t⟩ := q
    simp only [List.cons_append, lastCleaned, List.append_eq]
    rw [ih]
    cases h1 : lastCleaned ys κ <;> cases h2 : lastCleaned rest κ <;> simp [orElseOpt]

/-- If no entry normalizes to `κ`, the last-entry search finds nothing. -/
theorem lastCleaned_eq_none {T : Type} (xs : List (List Char × T)) (κ : List Char)
    (h : ∀ p ∈ xs, normalize p.1 ≠ κ) : lastCleaned xs κ = none := by
  induction xs with
  | nil => rfl
  | cons q rest ih =>
    obtain ⟨k, t⟩ := q
    simp only [lastCleaned]
    rw [ih (fun p hp => h p (List.mem_cons_of_mem _ hp)),
      if_neg (h (k, t) (List.mem_cons_self _ _))]
    rfl

/-- Claim C8: when two distinct original keys collapse to the same normalized
key, the entry processed later (here `(k₂, t₂)`, with no later entry mapping
to the same key) silently overwrites the earlier one in the new mapping —
the rewrite succeeds and the lookup returns `t₂`. -/
theorem collision_last_write_wins {T : Type} (pre mid post : List (List Char × T))
    (k₁ k₂ κ : List Char) (t₁ t₂ : T) (hne : k₁ ≠ k₂)
    (h₁ : normalize k₁ = κ) (h₂ : normalize k₂ = κ)
    (hpost : ∀ p ∈ post, normalize p.1 ≠ κ) :
    dictGet? (cleanLoop (pre ++ (k₁, t₁) :: mid ++ (k₂, t₂) :: post) [] false).1 κ =
      some t₂ := by
  have hpost' : lastCleaned post κ = none := lastCleaned_eq_none post κ hpost
  have h₂' : lastCleaned ((k₂, t₂) :: post) κ = some t₂ := by
    simp [lastCleaned, hpost', orElseOpt, h₂]
  rw [cleanLoop_get, lastCleaned_append, h₂']
  rfl

/-- Witness for C8: `"a._checkpoint_wrapped_module.w"` and the already
normalized `"a.w"` collapse; the later entry's value `2` survives. -/
theorem collision_last_write_wins_witness :
    "a._checkpoint_wrapped_module.w".toList ≠ "a.w".toList ∧
    normalize "a._checkpoint_wrapped_module.w".toList = "a.w".toList ∧
    normalize "a.w".toList = "a.w".toList ∧
    dictGet? (cleanLoop [("a._checkpoint_wrapped_module.w".toList, (1 : Nat)),
        ("a.w".toList, 2)] [] false).1 "a.w".toList = some 2 :=
  ⟨by decide, by decide, by decide,
    collision_last_write_wins [] [] [] "a._checkpoint_wrapped_module.w".toList
      "a.w".toList "a.w".toList 1 2 (by decide) (by decide) (by decide)
      (by intro p hp; simp at hp)⟩

/-- Claim C10: a key that is exactly the marker normalizes to the empty
string, and the shard rewriter commits the tensor under the empty-string key
without any validation: the rewrite succeeds. -/
theorem marker_key_stored_under_empty_key {T : Type} (t : T) (f : ShardFile T)
    (h1 : f.readFails = false) (h2 : f.writeFails = false)
    (h3 : f.content.entries = [(marker, t)]) :
    normalize marker = [] ∧
    clean_safetensors_file f =
      (true, { f with content := Container.mk [(([] : List Char), t)] f.content.metadata }) := by
  obtain ⟨⟨entries, md⟩, rf, wf⟩ := f
  simp only at h1 h2 h3
  subst h1 h2 h3
  refine ⟨by decide, ?_⟩
  have hloop : cleanLoop [(marker, t)] [] false = ([(([] : List Char), t)], true) := by
    simp [cleanLoop, dictInsert, show hasSub marker marker = true from by decide,
      show normalize marker = [] from by decide]
  simp [clean_safetensors_file, hloop]

/-- A concrete shard file whose single key is exactly the marker. -/
def shardMarkerOnly : ShardFile Nat :=
  ShardFile.mk (Container.mk [(marker, 5)] []) false false

/-- Witness for C10 at `shardMarkerOnly`. -/
theorem marker_key_stored_witness :
    shardMarkerOnly.readFails = false ∧
    shardMarkerOnly.writeFails = false ∧
    shardMarkerOnly.content.entries = [(marker, 5)] ∧
    (normalize marker = [] ∧
      clean_safetensors_file shardMarkerOnly =
        (true, { shardMarkerOnly with
          content := Container.mk [(([] : List Char), 5)] shardMarkerOnly.content.metadata })) :=
  ⟨rfl, rfl, rfl, marker_key_stored_under_empty_key 5 shardMarkerOnly rfl rfl rfl⟩

end PrefixCleaner
